import Mathlib

/-!
# REST2 preparation pipeline: verification of the selection / annotation engine

Shallow embedding of the algorithmic core of the REST2 preparation tool:
the temperature-ladder calculator (`src/utils/temperature_calculator.py`),
the range-compression atom-list encoder
(`src/modules/temperature_controller.py`), the topology annotator
(`src/modules/solute_selector.py` and `src/modules/solute_selector_module.py`)
and the trajectory-occupancy analysis
(`src/modules/structure_analyzer_module.py`,
`src/utils/validation_framework.py`).

Text lines are modelled as `List Char` (the Python code iterates over the
lines of the file); documents are lists of lines.  Python floats are
idealised as real numbers, and the exact rational arithmetic of
counters/occupancies as `ℚ`.
-/

namespace REST2



/-- The whitespace characters stripped by Python's `str.strip` / split by
`str.split()` (space, tab, newline, carriage return, vertical tab, form feed). -/
def isPySpace (c : Char) : Bool :=
  c = ' ' || c = '\t' || c = '\n' || c = '\r' || c = '\x0b' || c = '\x0c'

/-- Python `str.strip()`: drop leading and trailing whitespace. -/
def pyStrip (cs : List Char) : List Char :=
  ((cs.dropWhile isPySpace).reverse.dropWhile isPySpace).reverse

/-- Generic maximal-run splitter: splits a character list at the characters
satisfying `p`, discarding empty pieces.  `acc` is the (in-order) partial
token being accumulated. -/
def splitWhenAux (p : Char → Bool) (acc : List Char) : List Char → List (List Char)
  | [] => if acc.isEmpty then [] else [acc]
  | c :: cs =>
    if p c then
      if acc.isEmpty then splitWhenAux p [] cs else acc :: splitWhenAux p [] cs
    else
      splitWhenAux p (acc ++ [c]) cs

/-- Split a character list at the characters satisfying `p`, discarding
empty pieces (the behaviour of Python `str.split()` for
`p = isPySpace`). -/
def splitWhen (p : Char → Bool) (cs : List Char) : List (List Char) :=
  splitWhenAux p [] cs

/-- Python `str.split()` with no argument: split on whitespace runs. -/
def pySplit (cs : List Char) : List (List Char) :=
  splitWhen isPySpace cs

/-- The decimal digit character for `d < 10`. -/
def digitChar (d : ℕ) : Char :=
  Char.ofNat (48 + d)

/-- Decimal rendering with structural fuel (`fuel > n` suffices). -/
def natCharsAux (fuel : ℕ) (n : ℕ) : List Char :=
  match fuel with
  | 0 => []
  | fuel + 1 =>
    if n < 10 then [digitChar n]
    else natCharsAux fuel (n / 10) ++ [digitChar (n % 10)]

/-- Decimal rendering of a natural number, as produced by Python `str(n)`. -/
def natChars (n : ℕ) : List Char := natCharsAux (n + 1) n

/-- Value of a decimal digit string (used by the spec-modelled decoder and
by the embedding of Python `int`). -/
def digitsVal (cs : List Char) : ℕ :=
  cs.foldl (fun a c => 10 * a + (c.toNat - 48)) 0

/-- Embedding of Python `int(token)` on whitespace-free tokens: an optional
sign followed by a non-empty digit string; anything else raises
`ValueError` (modelled as `none`). -/
def pyInt? : List Char → Option ℤ
  | [] => none
  | c :: rest =>
    if c = '-' then
      if rest.isEmpty || !rest.all Char.isDigit then none
      else some (-(digitsVal rest : ℤ))
    else if c = '+' then
      if rest.isEmpty || !rest.all Char.isDigit then none
      else some (digitsVal rest : ℤ)
    else
      if !(c :: rest).all Char.isDigit then none
      else some (digitsVal (c :: rest) : ℤ)

/-- Python `sep.join(pieces)`. -/
def pyJoin (sep : List Char) : List (List Char) → List Char
  | [] => []
  | [x] => x
  | x :: y :: xs => x ++ sep ++ pyJoin sep (y :: xs)

/-! ## Temperature calculator (`src/utils/temperature_calculator.py`)

Python floats are idealised as real numbers; `np.linspace(a, b, n)` samples
`a + i * (b - a) / (n - 1)`. -/

/-- `TemperatureCalculator.calculate_temperature_ladder`: validates
`T_min`, `T_max`, `n_replicas`, returns `[T_min]` for a single replica, and
otherwise builds the linear or exponential ladder, rejecting unknown
methods. -/
noncomputable def calculate_temperature_ladder (T_min T_max : ℝ) (n_replicas : ℕ)
    (method : String) : Except String (List ℝ) :=
  if T_min ≤ 0 then .error "T_min must be positive"
  else if T_max ≤ T_min then .error "T_max must be greater than T_min"
  else if n_replicas < 1 then .error "n_replicas must be at least 1"
  else if n_replicas = 1 then .ok [T_min]
  else if method = "linear" then
    .ok ((List.range n_replicas).map fun i : ℕ =>
      T_min + (i : ℝ) * (T_max - T_min) / ((n_replicas : ℝ) - 1))
  else if method = "exponential" then
    .ok ((List.range n_replicas).map fun i =>
      T_min * ((T_max / T_min) ^ ((1 : ℝ) / ((n_replicas : ℝ) - 1))) ^ i)
  else .error ("Unknown scaling method: " ++ method)

/-- `TemperatureCalculator.calculate_scaling_factors`: rejects an empty list
and non-positive temperatures, then maps `T ↦ T_ref / T` with
`T_ref = min(temperatures)`. -/
noncomputable def calculate_scaling_factors (temperatures : List ℝ) :
    Except String (List ℝ) :=
  match temperatures with
  | [] => .error "Temperature list cannot be empty"
  | t :: ts =>
    if ∃ T ∈ t :: ts, T ≤ 0 then .error "All temperatures must be positive"
    else
      let T_ref := ts.foldl min t
      .ok ((t :: ts).map fun T => T_ref / T)

/-- `TemperatureCalculator.calculate_temperature_and_scaling`: the ladder
followed by the scaling factors. -/
noncomputable def calculate_temperature_and_scaling (T_min T_max : ℝ)
    (n_replicas : ℕ) (method : String) : Except String (List ℝ × List ℝ) := do
  let temperatures ← calculate_temperature_ladder T_min T_max n_replicas method
  let scaling_factors ← calculate_scaling_factors temperatures
  return (temperatures, scaling_factors)

/-! ## Topology annotator (`src/modules/solute_selector.py`)

The Python code iterates over the lines of the topology file; a line is a
`List Char` (including its trailing newline).  The parser state and the
modification statistics mirror the local variables of
`SoluteSelector._parse_and_modify_topology`. -/

/-- A text line, character by character. -/
abbrev Line := List Char

/-- Convert string literals to lines. -/
def lineOf (s : String) : Line := s.data

/-- The `[ moleculetype ]` header text tested by `startswith`. -/
def moleculetypeHeader : Line := lineOf "[ moleculetype ]"

/-- The `[ atoms ]` header text tested by `startswith`. -/
def atomsHeader : Line := lineOf "[ atoms ]"

/-- Python truthiness of an optional string (`None` and `""` are falsy). -/
def pyFalsy (o : Option Line) : Bool :=
  match o with
  | none => true
  | some s => s.isEmpty

/-- Parser flags of `_parse_and_modify_topology`. -/
structure TopoState where
  in_moleculetype : Bool
  in_atoms_section : Bool
  found_target_molecule : Bool
  current_molecule : Option Line
deriving Repr, DecidableEq

/-- Initial parser flags. -/
def initTopoState : TopoState :=
  { in_moleculetype := false, in_atoms_section := false,
    found_target_molecule := false, current_molecule := none }

/-- The `modification_stats` dictionary of `_parse_and_modify_topology`. -/
structure TopoStats where
  total_atoms : ℕ
  modified_atoms : ℕ
  target_molecule : Option Line
  molecules_found : List Line
deriving Repr, DecidableEq

/-- Initial statistics. -/
def initTopoStats : TopoStats :=
  { total_atoms := 0, modified_atoms := 0, target_molecule := none,
    molecules_found := [] }

/-- Folding accumulator of `_parse_and_modify_topology`: parser flags, the
`modified_lines` list and the statistics. -/
structure TopoAcc where
  state : TopoState
  lines : List Line
  stats : TopoStats
deriving Repr, DecidableEq

/-- `SoluteSelector._modify_atom_line` (`solute_selector.py`): parse the
stripped line into whitespace fields (`nr type resnr residue atom cgnr
charge mass`), require at least 8 fields and integer `nr`/`resnr`; if the
0-based atom number is in the solute set and the type token does not already
end in `_`, rebuild the line with the suffixed type joined by single spaces;
otherwise return `none` (the caller then keeps the original line). -/
def modify_atom_line (solute_atom_indices : Finset ℤ) (stripped_line : Line) :
    Option Line :=
  let parts := pySplit stripped_line
  if parts.length < 8 then none
  else
    match pyInt? (parts.getD 0 []), pyInt? (parts.getD 2 []) with
    | some nr, some _resnr =>
      let atom_nr := nr - 1
      let atom_type := parts.getD 1 []
      if atom_nr ∈ solute_atom_indices then
        if atom_type.getLast? = some '_' then none
        else some (pyJoin [' '] (parts.set 1 (atom_type ++ ['_'])) ++ ['\n'])
      else none
    | _, _ => none

/-- The sequential `if` at lines 142-144 of `solute_selector.py`: any other
section header ends the moleculetype/atoms sections. -/
def topo_section_flags (stripped : Line) (st : TopoState) : TopoState :=
  if ['['].isPrefixOf stripped && !(atomsHeader.isPrefixOf stripped) then
    { st with
      in_atoms_section := false
      in_moleculetype := false }
  else st

/-- The sequential `if` at lines 147-156 of `solute_selector.py`: the first
non-comment, non-blank line inside a moleculetype section names the molecule
and decides whether it is the annotation target. -/
def topo_name_step (molecule_name : Option Line) (stripped : Line)
    (st : TopoState) (stats : TopoStats) : TopoState × TopoStats :=
  if st.in_moleculetype && !([';'].isPrefixOf stripped) && !stripped.isEmpty then
    if pyFalsy st.current_molecule then
      let tok := (pySplit stripped).getD 0 []
      let found := molecule_name.isNone || molecule_name = some tok
      ({ st with
          current_molecule := some tok
          found_target_molecule := found },
       { stats with
          molecules_found := stats.molecules_found ++ [tok]
          target_molecule :=
            if found then some tok else stats.target_molecule })
    else (st, stats)
  else (st, stats)

/-- The sequential `if` at lines 159-171 of `solute_selector.py`: in an
in-scope atoms section, a non-comment non-blank non-header line is counted
and possibly rewritten; every other line is appended unchanged. -/
def topo_atoms_step (solute_atom_indices : Finset ℤ) (line stripped : Line)
    (st : TopoState) (emitted : List Line) (stats : TopoStats) :
    List Line × TopoStats :=
  if st.in_atoms_section && st.found_target_molecule
      && !([';'].isPrefixOf stripped) then
    if !stripped.isEmpty && !(['['].isPrefixOf stripped) then
      let stats3 := { stats with total_atoms := stats.total_atoms + 1 }
      match modify_atom_line solute_atom_indices stripped with
      | some m =>
        (emitted ++ [m], { stats3 with modified_atoms := stats3.modified_atoms + 1 })
      | none => (emitted ++ [line], stats3)
    else (emitted ++ [line], stats)
  else (emitted ++ [line], stats)

/-- One iteration of the line loop of
`SoluteSelector._parse_and_modify_topology` (`solute_selector.py`).  The
`[ moleculetype ]` and `[ atoms ]` branches execute `continue` (emitting no
line); the remaining sequential `if` statements are
`topo_section_flags`, `topo_name_step` and `topo_atoms_step`. -/
def process_topology_line (molecule_name : Option Line)
    (solute_atom_indices : Finset ℤ) (acc : TopoAcc) (line : Line) : TopoAcc :=
  let stripped := pyStrip line
  if moleculetypeHeader.isPrefixOf stripped then
    { acc with
      state := { acc.state with
        in_moleculetype := true
        in_atoms_section := false
        current_molecule := none } }
  else if atomsHeader.isPrefixOf stripped then
    { acc with state := { acc.state with in_atoms_section := true } }
  else
    let st1 := topo_section_flags stripped acc.state
    let p := topo_name_step molecule_name stripped st1 acc.stats
    let q := topo_atoms_step solute_atom_indices line stripped p.1 acc.lines p.2
    { state := p.1, lines := q.1, stats := q.2 }

/-- `SoluteSelector._parse_and_modify_topology` (`solute_selector.py`) over a
document given as its list of lines: returns the emitted lines and the
statistics. -/
def parse_and_modify_topology (molecule_name : Option Line)
    (solute_atom_indices : Finset ℤ) (doc : List Line) : List Line × TopoStats :=
  let acc := doc.foldl (process_topology_line molecule_name solute_atom_indices)
    { state := initTopoState, lines := [], stats := initTopoStats }
  (acc.lines, acc.stats)

/-- First-occurrence substring replacement, the behaviour of Python
`str.replace(old, new, 1)` for a non-empty `old`. -/
def replaceFirst (old new : Line) : Line → Line
  | [] => []
  | c :: cs =>
    if old.isPrefixOf (c :: cs) then new ++ (c :: cs).drop old.length
    else c :: replaceFirst old new cs

/-- `SoluteSelector._modify_atom_line` from the duplicated variant
`src/modules/solute_selector_module.py`: an atom line whose residue number is
not in `all_solute_residues` yields `none`, and the caller
(`_parse_and_modify_topology`, lines 144-146 of that file) then appends
nothing — the line is dropped from the output. -/
def modify_atom_line_module (all_solute_residues : Finset ℤ)
    (original_line stripped_line : Line) : Option Line :=
  let fields := pySplit stripped_line
  if fields.length < 3 then some original_line
  else
    match pyInt? (fields.getD 0 []), pyInt? (fields.getD 2 []) with
    | some _atom_id, some resid =>
      let atom_type := fields.getD 1 []
      if resid ∉ all_solute_residues then none
      else if atom_type.getLast? = some '_' then some original_line
      else some (replaceFirst atom_type (atom_type ++ ['_']) original_line)
    | _, _ => some original_line

/-- A line that cannot re-enter a moleculetype or atoms section: its stripped
form starts with neither `[ moleculetype ]` nor `[ atoms ]`. -/
def headerFree (l : Line) : Prop :=
  moleculetypeHeader.isPrefixOf (pyStrip l) = false ∧
  atomsHeader.isPrefixOf (pyStrip l) = false

/-! ## Range encoder
(`TemperatureController._format_atom_list`,
`src/modules/temperature_controller.py`) -/

/-- The placeholder returned for an empty/missing index list. -/
def placeholderAtomList : String :=
  "1-100  # EDIT THIS: Replace with actual solute atom indices"

/-- One emitted range token: `str(start)` for a singleton, `f"{start}-{end}"`
for a run of length at least two. -/
def rangeStr (start e : ℕ) : Line :=
  if start = e then natChars start else natChars start ++ '-' :: natChars e

/-- The run-grouping loop of `_format_atom_list` (iterating over
`sorted_indices[1:]` with the trailing flush of the last run). -/
def rangesLoop (start e : ℕ) : List ℕ → List Line
  | [] => [rangeStr start e]
  | x :: xs =>
    if x = e + 1 then rangesLoop start x xs
    else rangeStr start e :: rangesLoop x x xs

/-- Python `str.rstrip()`: drop trailing whitespace. -/
def pyRstrip (cs : Line) : Line :=
  (cs.reverse.dropWhile isPySpace).reverse

/-- The continuation separator `" \\\n    "` used when wrapping long atom
lists. -/
def wrapSep : Line := lineOf " \\\n    "

/-- The line-wrapping loop of `_format_atom_list` (entered when the
comma-joined list exceeds 80 characters). -/
def wrapLoop (formatted : List Line) (current : Line) (line_length : ℕ) :
    List Line → List Line
  | [] => if current.isEmpty then formatted else formatted ++ [current]
  | r :: rs =>
    if line_length + r.length + 1 > 80 then
      wrapLoop (if current.isEmpty then formatted
        else formatted ++ [pyRstrip current]) r r.length rs
    else if current.isEmpty then wrapLoop formatted r r.length rs
    else wrapLoop formatted (current ++ ',' :: r) (line_length + r.length + 1) rs

/-- `TemperatureController._format_atom_list`: empty input yields the
placeholder; otherwise sort, group maximal consecutive runs, join with
commas, and wrap with the backslash continuation when longer than 80
characters. -/
def format_atom_list (atom_indices : List ℕ) : String :=
  if atom_indices.isEmpty then placeholderAtomList
  else
    let sorted_indices := atom_indices.insertionSort (· ≤ ·)
    let ranges :=
      match sorted_indices with
      | [] => []
      | x :: xs => rangesLoop x x xs
    let atom_list := pyJoin [','] ranges
    if atom_list.length > 80 then
      String.mk (pyJoin wrapSep (wrapLoop [] [] 0 ranges))
    else String.mk atom_list

/-- The atom-list selection of
`TemperatureController._create_partial_tempering_command` (lines 296-300):
a present, non-empty index list is range-encoded, otherwise the placeholder
is used. -/
def atom_list_for (solute_atom_indices : Option (List ℕ)) : String :=
  match solute_atom_indices with
  | some l => if l.length > 0 then format_atom_list l else placeholderAtomList
  | none => placeholderAtomList

/-- The separator characters of the encoder output: the comma between runs
and the space/backslash/newline continuation. -/
def isSepChar (c : Char) : Bool :=
  c = ',' || c = ' ' || c = '\\' || c = '\n'

/-- Modelled from the spec: the production code has no decoder, but §4.5
requires "Decoding (range string → the original index set)" to be a
well-defined inverse of the encoder.  A token is a run, either `"n"` or
`"a-b"`; tokens are separated by commas and by the backslash/newline/indent
continuation. -/
def decodeToken (t : Line) : Finset ℕ :=
  if t.any (· == '-') then
    Finset.Icc (digitsVal (t.takeWhile fun c => !(c == '-')))
      (digitsVal ((t.dropWhile fun c => !(c == '-')).drop 1))
  else {digitsVal t}

/-- Modelled from the spec: decode a range-list string to its index set by
splitting at separators and taking the union of the decoded run tokens. -/
def decode_atom_list (s : String) : Finset ℕ :=
  ((splitWhen isSepChar s.data).map decodeToken).foldr (· ∪ ·) ∅

/-- The remainder after a token: either the string ends or a separator
follows. -/
def headSep (p : Char → Bool) (cs : List Char) : Prop :=
  cs = [] ∨ ∃ d ds, cs = d :: ds ∧ p d = true

/-! ## Trajectory occupancy analysis
(`StructureAnalyzer.find_nearby_residues_trajectory`,
`src/modules/structure_analyzer_module.py`, and the `occupancy_threshold`
check of `ValidationFramework.validate_configuration`,
`src/utils/validation_framework.py` lines 59-61) -/

/-- An atom as the analyzer sees it: an index into the position table and a
residue id. -/
structure AtomRec where
  idx : ℕ
  resid : ℤ
deriving Repr, DecidableEq

/-- One trajectory frame: atom positions by atom index. -/
structure Frame where
  pos : ℕ → ℝ × ℝ × ℝ

/-- Euclidean distance between two atoms in a frame
(`np.linalg.norm(target_pos - protein_atom.position)`). -/
noncomputable def atomDist (f : Frame) (a b : AtomRec) : ℝ :=
  Real.sqrt (((f.pos a.idx).1 - (f.pos b.idx).1) ^ 2 +
    ((f.pos a.idx).2.1 - (f.pos b.idx).2.1) ^ 2 +
    ((f.pos a.idx).2.2 - (f.pos b.idx).2.2) ^ 2)

/-- The per-frame contact set of `find_nearby_residues_trajectory`: the
residues of protein atoms within the cutoff of some target atom, skipping
pairs in the same residue. -/
noncomputable def frameContacts (f : Frame)
    (target_atoms protein_atoms : List AtomRec)
    (cutoff_distance : ℝ) : Finset ℤ :=
  ((protein_atoms.filter fun p => decide (∃ t ∈ target_atoms,
      t.resid ≠ p.resid ∧ atomDist f t p ≤ cutoff_distance)).map
    AtomRec.resid).toFinset

/-- `StructureAnalyzer.find_nearby_residues_trajectory`: fails only when no
trajectory is loaded; otherwise scans every frame, counts per residue the
frames in which it contacts the target, and keeps the residues whose
occupancy `count / total_frames` reaches the threshold.  The function
performs no validation of `occupancy_threshold`. -/
noncomputable def find_nearby_residues_trajectory
    (trajectory : Option (List Frame))
    (target_atoms protein_atoms : List AtomRec)
    (cutoff_distance occupancy_threshold : ℝ) : Except String (Finset ℤ) :=
  match trajectory with
  | none => .error "Trajectory file required for dynamic analysis"
  | some frames =>
    let total_frames := frames.length
    let contacted := frames.foldr
      (fun f acc =>
        frameContacts f target_atoms protein_atoms cutoff_distance ∪ acc) ∅
    .ok (contacted.filter fun r =>
      ((frames.filter fun f =>
          r ∈ frameContacts f target_atoms protein_atoms
            cutoff_distance).length : ℝ) / (total_frames : ℝ) ≥
        occupancy_threshold)

/-- Lines 59-61 of `ValidationFramework.validate_configuration`
(`src/utils/validation_framework.py`), the range check the claim cites:
an error string is collected when the value is below `0` or above `1`, so
`0` itself passes this check.  The fallback check at
`config_manager.py` line 194 has the same `< 0 or > 1` form. -/
noncomputable def occupancy_threshold_errors (occupancy_threshold : ℝ) :
    List String :=
  if occupancy_threshold < 0 ∨ occupancy_threshold > 1 then
    ["occupancy_threshold must be between 0 and 1"]
  else []

/-- Line 209 of `ConfigManager.validate_config`
(`src/modules/config_manager_module.py`), the range check of the duplicated
config-manager variant: when `use_trajectory` is set, the threshold must
satisfy `0 < occupancy_threshold <= 1`, otherwise an error string is
collected; nothing is checked when `use_trajectory` is unset.  Config
validation runs before any trajectory scan. -/
noncomputable def occupancy_threshold_errors_module (use_trajectory : Bool)
    (occupancy_threshold : ℝ) : List String :=
  if use_trajectory = true ∧
      ¬ (0 < occupancy_threshold ∧ occupancy_threshold ≤ 1) then
    ["occupancy_threshold must be between 0 and 1"]
  else []

lemma getD_range_map {α : Type} (f : ℕ → α) (n i : ℕ) (hi : i < n) (d : α) :
    ((List.range n).map f).getD i d = f i := by
  rw [List.getD_eq_getElem?_getD]
  simp [List.getElem?_range, hi]

section TemperatureLemmas

variable {α : Type} [LinearOrder α]

lemma foldl_min_le_init (ts : List α) : ∀ t : α, ts.foldl min t ≤ t := by
  induction ts with
  | nil => intro t; simp
  | cons y ys ih =>
    intro t
    simpa using le_trans (ih (min t y)) (min_le_left t y)

lemma foldl_min_le_mem (ts : List α) : ∀ (t : α), ∀ x ∈ ts, ts.foldl min t ≤ x := by
  induction ts with
  | nil => simp
  | cons y ys ih =>
    intro t x hx
    rcases List.mem_cons.mp hx with rfl | hx
    · simpa using le_trans (foldl_min_le_init ys (min t x)) (min_le_right t x)
    · simpa using ih (min t y) x hx

lemma foldl_min_eq_head (ts : List α) (t : α) (h : ∀ x ∈ ts, t ≤ x) :
    ts.foldl min t = t := by
  induction ts generalizing t with
  | nil => rfl
  | cons y ys ih =>
    have hy : t ≤ y := h y (by simp)
    simp only [List.foldl_cons, min_eq_left hy]
    exact ih t fun x hx => h x (by simp [hx])

lemma foldl_min_mem (ts : List α) : ∀ t, ts.foldl min t ∈ t :: ts := by
  induction ts with
  | nil => simp
  | cons y ys ih =>
    intro t
    simp only [List.foldl_cons]
    rcases List.mem_cons.mp (ih (min t y)) with h | h
    · rcases min_choice t y with h' | h'
      · rw [h, h']; exact List.mem_cons_self _ _
      · rw [h, h']; simp
    · simp [h]

end TemperatureLemmas

lemma getD_map_lt {α β : Type} (f : α → β) (l : List α) (i : ℕ)
    (hi : i < l.length) (d : β) (d' : α) :
    (l.map f).getD i d = f (l.getD i d') := by
  have hi' : i < (l.map f).length := by simpa using hi
  rw [List.getD_eq_getElem _ _ hi', List.getD_eq_getElem _ _ hi, List.getElem_map]

lemma scaling_factors_ok (t : ℝ) (ts : List ℝ)
    (hpos : ∀ T ∈ t :: ts, 0 < T) (hmin : ∀ T ∈ ts, t ≤ T) :
    calculate_scaling_factors (t :: ts) = .ok ((t :: ts).map fun T => t / T) := by
  have hno : ¬ ∃ T ∈ t :: ts, T ≤ 0 := by
    rintro ⟨T, hT, hle⟩
    exact absurd hle (not_le.mpr (hpos T hT))
  have hfold : ts.foldl min t = t := foldl_min_eq_head ts t hmin
  simp only [calculate_scaling_factors, if_neg hno, hfold]

/-- C10: `calculate_scaling_factors` accepts any non-empty list of strictly
positive temperatures (in any order), returning a same-length list with every
entry in `(0, 1]` and the entry exactly `1` wherever the temperature attains
the minimum; the empty list and lists with a non-positive entry are
rejected. -/
theorem scaling_factors_spec :
    (∀ temps : List ℝ, temps ≠ [] → (∀ T ∈ temps, 0 < T) →
      ∃ factors, calculate_scaling_factors temps = .ok factors ∧
        factors.length = temps.length ∧
        (∀ f ∈ factors, 0 < f ∧ f ≤ 1) ∧
        (∀ i < temps.length, (∀ T ∈ temps, temps.getD i 0 ≤ T) →
          factors.getD i 0 = 1)) ∧
    calculate_scaling_factors [] = .error "Temperature list cannot be empty" ∧
    (∀ temps : List ℝ, (∃ T ∈ temps, T ≤ 0) →
      calculate_scaling_factors temps =
        .error "All temperatures must be positive") := by
  refine ⟨?_, rfl, ?_⟩
  · intro temps hne hpos
    obtain ⟨t, ts, rfl⟩ := List.exists_cons_of_ne_nil hne
    have ht : 0 < t := hpos t (by simp)
    have hfoldmem : ts.foldl min t ∈ t :: ts := foldl_min_mem ts t
    have hfoldpos : 0 < ts.foldl min t := hpos _ hfoldmem
    have hfold_le : ∀ x ∈ t :: ts, ts.foldl min t ≤ x := by
      intro x hx
      rcases List.mem_cons.mp hx with rfl | hx
      · exact foldl_min_le_init ts x
      · exact foldl_min_le_mem ts t x hx
    have hno : ¬ ∃ T ∈ t :: ts, T ≤ 0 := by
      rintro ⟨T, hT, hle⟩
      exact absurd hle (not_le.mpr (hpos T hT))
    refine ⟨(t :: ts).map fun T => ts.foldl min t / T, ?_, by simp, ?_, ?_⟩
    · simp only [calculate_scaling_factors, if_neg hno]
    · intro f hf
      obtain ⟨T, hT, rfl⟩ := List.mem_map.mp hf
      exact ⟨div_pos hfoldpos (hpos T hT),
        (div_le_one (hpos T hT)).mpr (hfold_le T hT)⟩
    · intro i hi hattain
      have h1 : ((t :: ts).map fun T => ts.foldl min t / T).getD i 0 =
          ts.foldl min t / (t :: ts).getD i 0 := getD_map_lt _ _ i hi 0 0
      have hmem : (t :: ts).getD i 0 ∈ t :: ts := by
        rw [List.getD_eq_getElem _ _ hi]
        exact List.getElem_mem _
      have hle1 : (t :: ts).getD i 0 ≤ ts.foldl min t := hattain _ hfoldmem
      have hle2 : ts.foldl min t ≤ (t :: ts).getD i 0 := hfold_le _ hmem
      have heq : ts.foldl min t = (t :: ts).getD i 0 := le_antisymm hle2 hle1
      rw [h1, ← heq, div_self (ne_of_gt hfoldpos)]
  · intro temps hex
    match temps with
    | [] => simp at hex
    | t :: ts => simp only [calculate_scaling_factors, if_pos hex]

/-- C10 witness: the specification evaluated on the unsorted positive list
`[320, 300]`. -/
theorem scaling_factors_spec_witness :
    ∃ factors, calculate_scaling_factors [(320 : ℝ), 300] = .ok factors ∧
      factors.length = ([(320 : ℝ), 300]).length ∧
      (∀ f ∈ factors, 0 < f ∧ f ≤ 1) ∧
      (∀ i < ([(320 : ℝ), 300]).length,
        (∀ T ∈ [(320 : ℝ), 300], ([(320 : ℝ), 300]).getD i 0 ≤ T) →
        factors.getD i 0 = 1) :=
  scaling_factors_spec.1 [320, 300] (by simp) (by norm_num)

/-- C9: with a single replica the ladder returns `([T_min], [1.0])` for every
method string, known or unknown, and does not fail with an unknown-method
error. -/
theorem single_replica_ladder (T_min T_max : ℝ) (method : String)
    (h1 : 0 < T_min) (h2 : T_min < T_max) :
    calculate_temperature_ladder T_min T_max 1 method = .ok [T_min] ∧
    calculate_temperature_and_scaling T_min T_max 1 method =
      .ok ([T_min], [1]) := by
  have hA : ¬ T_min ≤ 0 := not_le.mpr h1
  have hB : ¬ T_max ≤ T_min := not_le.mpr h2
  have hL : calculate_temperature_ladder T_min T_max 1 method = .ok [T_min] := by
    simp [calculate_temperature_ladder, hA, hB]
  have hS : calculate_scaling_factors [T_min] = .ok [1] := by
    have := scaling_factors_ok T_min [] (by simpa using h1) (by simp)
    simpa [div_self (ne_of_gt h1)] using this
  refine ⟨hL, ?_⟩
  rw [calculate_temperature_and_scaling, hL]
  have hred : (do
      let temperatures ← Except.ok (ε := String) [T_min]
      let scaling_factors ← calculate_scaling_factors temperatures
      pure (temperatures, scaling_factors)) =
      Except.bind (calculate_scaling_factors [T_min])
        fun s => Except.ok ([T_min], s) := rfl
  rw [hred, hS]
  rfl

lemma ladder_scaling_of_monotone (f : ℕ → ℝ) (n : ℕ) (hn : 0 < n)
    (hpos : ∀ i, 0 < f i) (hmono : ∀ i j, i < j → f i < f j) :
    ∃ factors,
      calculate_scaling_factors ((List.range n).map f) = .ok factors ∧
      factors.length = n ∧
      (∀ i < n, factors.getD i 0 = f 0 / f i) ∧
      factors.getD 0 0 = 1 ∧
      (∀ T ∈ (List.range n).map f, f 0 ≤ T) := by
  have hlen : ((List.range n).map f).length = n := by simp
  have hne : (List.range n).map f ≠ [] := by
    intro h
    rw [h] at hlen
    simp at hlen
    omega
  have hmem_le : ∀ T ∈ (List.range n).map f, f 0 ≤ T := by
    intro T hT
    obtain ⟨i, _, rfl⟩ := List.mem_map.mp hT
    rcases Nat.eq_zero_or_pos i with rfl | hip
    · exact le_rfl
    · exact le_of_lt (hmono 0 i hip)
  have hpos' : ∀ T ∈ (List.range n).map f, 0 < T := by
    intro T hT
    obtain ⟨i, _, rfl⟩ := List.mem_map.mp hT
    exact hpos i
  obtain ⟨t, ts, hts⟩ := List.exists_cons_of_ne_nil hne
  have ht0 : t = f 0 := by
    have h := getD_range_map f n 0 hn (0 : ℝ)
    rw [hts] at h
    simpa using h
  have hok : calculate_scaling_factors ((List.range n).map f) =
      .ok (((List.range n).map f).map fun T => t / T) := by
    rw [hts]
    refine scaling_factors_ok t ts ?_ ?_
    · rw [← hts]; exact hpos'
    · intro T hT
      rw [ht0]
      exact hmem_le T (by rw [hts]; exact List.mem_cons_of_mem t hT)
  refine ⟨((List.range n).map f).map fun T => t / T, hok, by simp, ?_, ?_, hmem_le⟩
  · intro i hi
    have h1 : (((List.range n).map f).map fun T => t / T).getD i 0 =
        t / ((List.range n).map f).getD i 0 :=
      getD_map_lt _ _ i (by rw [hlen]; exact hi) 0 0
    rw [h1, ht0, getD_range_map f n i hi]
  · have h1 : (((List.range n).map f).map fun T => t / T).getD 0 0 =
        t / ((List.range n).map f).getD 0 0 :=
      getD_map_lt _ _ 0 (by rw [hlen]; exact hn) 0 0
    rw [h1, ht0, getD_range_map f n 0 hn, div_self (ne_of_gt (hpos 0))]

/-- C2: for `T_min > 0`, `T_max > T_min`, `n ≥ 2` and a known method, the
ladder has `n` strictly increasing temperatures following the documented
linear/exponential formula, starting at `T_min`, ending at `T_max` and
attaining the minimum at index `0`; the scaling factors are
`T_ref / T` with `T_ref = temperatures[0] = T_min`, so `factors[0] = 1`
exactly. -/
theorem temperature_ladder_spec (T_min T_max : ℝ) (n : ℕ) (method : String)
    (h1 : 0 < T_min) (h2 : T_min < T_max) (hn : 2 ≤ n)
    (hm : method = "linear" ∨ method = "exponential") :
    ∃ temps factors,
      calculate_temperature_ladder T_min T_max n method = .ok temps ∧
      calculate_scaling_factors temps = .ok factors ∧
      temps.length = n ∧ factors.length = n ∧
      (∀ i j, i < j → j < n → temps.getD i 0 < temps.getD j 0) ∧
      temps.getD 0 0 = T_min ∧
      temps.getD (n - 1) 0 = T_max ∧
      (∀ i < n, temps.getD i 0 =
        if method = "linear" then T_min + i * (T_max - T_min) / ((n : ℝ) - 1)
        else T_min * ((T_max / T_min) ^ ((1 : ℝ) / ((n : ℝ) - 1))) ^ i) ∧
      (∀ T ∈ temps, T_min ≤ T) ∧
      (∀ i < n, factors.getD i 0 = T_min / temps.getD i 0) ∧
      factors.getD 0 0 = 1 := by
  have hA : ¬ T_min ≤ 0 := not_le.mpr h1
  have hB : ¬ T_max ≤ T_min := not_le.mpr h2
  have hC : ¬ n < 1 := by omega
  have hD : ¬ n = 1 := by omega
  have hn0 : 0 < n := by omega
  have hcast : (2 : ℝ) ≤ (n : ℝ) := by exact_mod_cast hn
  have hdenom : (0 : ℝ) < (n : ℝ) - 1 := by linarith
  have hcastsub : ((n - 1 : ℕ) : ℝ) = (n : ℝ) - 1 := by
    have : (1 : ℕ) ≤ n := by omega
    push_cast [this]
    ring
  rcases hm with hlin | hexp
  · -- linear method
    set f : ℕ → ℝ := fun i => T_min + i * (T_max - T_min) / ((n : ℝ) - 1) with hf
    have hstep : (0 : ℝ) < (T_max - T_min) / ((n : ℝ) - 1) :=
      div_pos (by linarith) hdenom
    have hfpos : ∀ i, 0 < f i := by
      intro i
      have hnn : (0 : ℝ) ≤ (i : ℝ) * (T_max - T_min) / ((n : ℝ) - 1) := by
        rw [mul_div_assoc]
        exact mul_nonneg (Nat.cast_nonneg i) (le_of_lt hstep)
      simp only [hf]
      linarith
    have hfmono : ∀ i j, i < j → f i < f j := by
      intro i j hij
      simp only [hf]
      have hij' : (i : ℝ) < (j : ℝ) := by exact_mod_cast hij
      have := mul_lt_mul_of_pos_right hij' hstep
      rw [mul_div_assoc, mul_div_assoc]
      linarith
    have hf0 : f 0 = T_min := by simp [hf]
    have hflast : f (n - 1) = T_max := by
      have hne' : (n : ℝ) - 1 ≠ 0 := ne_of_gt hdenom
      simp only [hf, hcastsub]
      field_simp
    have hok : calculate_temperature_ladder T_min T_max n method =
        .ok ((List.range n).map f) := by
      simp only [calculate_temperature_ladder]
      rw [if_neg hA, if_neg hB, if_neg hC, if_neg hD, if_pos hlin]
    obtain ⟨factors, hfac, hflen, hfgetD, hfac0, hmin⟩ :=
      ladder_scaling_of_monotone f n hn0 hfpos hfmono
    refine ⟨(List.range n).map f, factors, hok, hfac, by simp, hflen, ?_, ?_, ?_, ?_, ?_, ?_, hfac0⟩
    · intro i j hij hj
      rw [getD_range_map f n i (by omega), getD_range_map f n j hj]
      exact hfmono i j hij
    · rw [getD_range_map f n 0 hn0, hf0]
    · rw [getD_range_map f n (n - 1) (by omega), hflast]
    · intro i hi
      rw [getD_range_map f n i hi, if_pos hlin]
    · intro T hT
      rw [← hf0]
      exact hmin T hT
    · intro i hi
      rw [hfgetD i hi, hf0, getD_range_map f n i hi]
  · -- exponential method
    have hmne : ¬ method = "linear" := by rw [hexp]; decide
    set r : ℝ := (T_max / T_min) ^ ((1 : ℝ) / ((n : ℝ) - 1)) with hr
    have hbase0 : 0 < T_max / T_min := div_pos (lt_trans h1 h2) h1
    have hbase1 : 1 < T_max / T_min := (one_lt_div h1).mpr h2
    have hexp0 : 0 < (1 : ℝ) / ((n : ℝ) - 1) := div_pos one_pos hdenom
    have hr1 : 1 < r := by
      rw [hr]
      exact (Real.one_lt_rpow_iff_of_pos hbase0).mpr (Or.inl ⟨hbase1, hexp0⟩)
    have hr0 : 0 < r := lt_trans one_pos hr1
    set f : ℕ → ℝ := fun i => T_min * r ^ i with hf
    have hfpos : ∀ i, 0 < f i := fun i => mul_pos h1 (pow_pos hr0 i)
    have hfmono : ∀ i j, i < j → f i < f j := by
      intro i j hij
      simp only [hf]
      exact mul_lt_mul_of_pos_left (pow_lt_pow_right₀ hr1 hij) h1
    have hf0 : f 0 = T_min := by simp [hf]
    have hflast : f (n - 1) = T_max := by
      simp only [hf, hr]
      rw [← Real.rpow_natCast ((T_max / T_min) ^ ((1 : ℝ) / ((n : ℝ) - 1))) (n - 1),
        ← Real.rpow_mul (le_of_lt hbase0), hcastsub,
        div_mul_cancel₀ (1 : ℝ) (ne_of_gt hdenom), Real.rpow_one]
      field_simp
    have hok : calculate_temperature_ladder T_min T_max n method =
        .ok ((List.range n).map f) := by
      simp only [calculate_temperature_ladder]
      rw [if_neg hA, if_neg hB, if_neg hC, if_neg hD, if_neg hmne, if_pos hexp]
    obtain ⟨factors, hfac, hflen, hfgetD, hfac0, hmin⟩ :=
      ladder_scaling_of_monotone f n hn0 hfpos hfmono
    refine ⟨(List.range n).map f, factors, hok, hfac, by simp, hflen, ?_, ?_, ?_, ?_, ?_, ?_, hfac0⟩
    · intro i j hij hj
      rw [getD_range_map f n i (by omega), getD_range_map f n j hj]
      exact hfmono i j hij
    · rw [getD_range_map f n 0 hn0, hf0]
    · rw [getD_range_map f n (n - 1) (by omega), hflast]
    · intro i hi
      rw [getD_range_map f n i hi, if_neg hmne]
    · intro T hT
      rw [← hf0]
      exact hmin T hT
    · intro i hi
      rw [hfgetD i hi, hf0, getD_range_map f n i hi]

/-- C2 witness: the linear ladder for `T_min = 300`, `T_max = 340`,
`n = 2`. -/
theorem temperature_ladder_spec_witness :
    ∃ temps factors,
      calculate_temperature_ladder 300 340 2 "linear" = .ok temps ∧
      calculate_scaling_factors temps = .ok factors ∧
      temps.length = 2 ∧ factors.length = 2 ∧
      (∀ i j, i < j → j < 2 → temps.getD i 0 < temps.getD j 0) ∧
      temps.getD 0 0 = 300 ∧
      temps.getD (2 - 1) 0 = 340 ∧
      (∀ i < 2, temps.getD i 0 =
        if "linear" = "linear" then 300 + i * (340 - 300) / ((2 : ℝ) - 1)
        else 300 * ((340 / 300) ^ ((1 : ℝ) / ((2 : ℝ) - 1))) ^ i) ∧
      (∀ T ∈ temps, (300 : ℝ) ≤ T) ∧
      (∀ i < 2, factors.getD i 0 = 300 / temps.getD i 0) ∧
      factors.getD 0 0 = 1 :=
  temperature_ladder_spec 300 340 2 "linear" (by norm_num) (by norm_num)
    (by norm_num) (Or.inl rfl)

/-- C9 witness: `n = 1` with the unknown method string `"foo"`. -/
theorem single_replica_ladder_witness :
    calculate_temperature_ladder 300 340 1 "foo" = .ok [300] ∧
    calculate_temperature_and_scaling 300 340 1 "foo" = .ok ([300], [1]) :=
  single_replica_ladder 300 340 "foo" (by norm_num) (by norm_num)

lemma topo_section_flags_in_atoms (stripped : Line) (st : TopoState)
    (h : st.in_atoms_section = false) :
    (topo_section_flags stripped st).in_atoms_section = false := by
  unfold topo_section_flags
  split_ifs <;> simp [h]

lemma topo_name_step_state (mol : Option Line) (stripped : Line)
    (st : TopoState) (stats : TopoStats) :
    (topo_name_step mol stripped st stats).1.in_atoms_section =
      st.in_atoms_section ∧
    (topo_name_step mol stripped st stats).2.total_atoms = stats.total_atoms ∧
    (topo_name_step mol stripped st stats).2.modified_atoms =
      stats.modified_atoms := by
  unfold topo_name_step
  split_ifs <;> simp

lemma topo_atoms_step_skip (solute : Finset ℤ) (line stripped : Line)
    (st : TopoState) (emitted : List Line) (stats : TopoStats)
    (h : st.in_atoms_section = false) :
    topo_atoms_step solute line stripped st emitted stats =
      (emitted ++ [line], stats) := by
  unfold topo_atoms_step
  simp [h]

lemma process_line_no_atoms (mol : Option Line) (solute : Finset ℤ)
    (acc : TopoAcc) (line : Line)
    (hpre : atomsHeader.isPrefixOf (pyStrip line) = false)
    (hstate : acc.state.in_atoms_section = false) :
    (process_topology_line mol solute acc line).state.in_atoms_section = false ∧
    (process_topology_line mol solute acc line).stats.total_atoms =
      acc.stats.total_atoms ∧
    (process_topology_line mol solute acc line).stats.modified_atoms =
      acc.stats.modified_atoms := by
  unfold process_topology_line
  by_cases h1 : moleculetypeHeader.isPrefixOf (pyStrip line) = true
  · simp [h1]
  · rw [Bool.not_eq_true] at h1
    simp only [h1, hpre, Bool.false_eq_true, if_false]
    have hA := topo_section_flags_in_atoms (pyStrip line) acc.state hstate
    have hB := topo_name_step_state mol (pyStrip line)
      (topo_section_flags (pyStrip line) acc.state) acc.stats
    have hC : (topo_name_step mol (pyStrip line)
        (topo_section_flags (pyStrip line) acc.state) acc.stats).1.in_atoms_section
        = false := hB.1.trans hA
    rw [topo_atoms_step_skip _ _ _ _ _ _ hC]
    exact ⟨hC, hB.2.1, hB.2.2⟩

lemma fold_no_atoms (mol : Option Line) (solute : Finset ℤ) :
    ∀ (doc : List Line) (acc : TopoAcc),
      (∀ l ∈ doc, atomsHeader.isPrefixOf (pyStrip l) = false) →
      acc.state.in_atoms_section = false →
      (doc.foldl (process_topology_line mol solute) acc).stats.total_atoms =
        acc.stats.total_atoms ∧
      (doc.foldl (process_topology_line mol solute) acc).stats.modified_atoms =
        acc.stats.modified_atoms := by
  intro doc
  induction doc with
  | nil => intro acc _ _; exact ⟨rfl, rfl⟩
  | cons l ls ih =>
    intro acc hall hstate
    have hp := process_line_no_atoms mol solute acc l (hall l (by simp)) hstate
    have hrest := ih (process_topology_line mol solute acc l)
      (fun x hx => hall x (by simp [hx])) hp.1
    simp only [List.foldl_cons]
    exact ⟨hrest.1.trans hp.2.1, hrest.2.trans hp.2.2⟩

lemma splitWhenAux_tokens (p : Char → Bool) :
    ∀ (cs acc : List Char), (∀ c ∈ acc, p c = false) →
      ∀ t ∈ splitWhenAux p acc cs, t ≠ [] ∧ ∀ c ∈ t, p c = false := by
  intro cs
  induction cs with
  | nil =>
    intro acc hacc t ht
    simp only [splitWhenAux] at ht
    by_cases he : acc.isEmpty
    · simp [he] at ht
    · rw [if_neg he] at ht
      rcases List.mem_singleton.mp ht with rfl
      exact ⟨fun h => he (by simp [h]), hacc⟩
  | cons c cs ih =>
    intro acc hacc t ht
    simp only [splitWhenAux] at ht
    by_cases hp : p c = true
    · rw [if_pos hp] at ht
      by_cases he : acc.isEmpty
      · rw [if_pos he] at ht
        exact ih [] (by simp) t ht
      · rw [if_neg he] at ht
        rcases List.mem_cons.mp ht with rfl | ht
        · exact ⟨fun h => he (by simp [h]), hacc⟩
        · exact ih [] (by simp) t ht
    · rw [Bool.not_eq_true] at hp
      rw [if_neg (by simp [hp])] at ht
      refine ih (acc ++ [c]) ?_ t ht
      intro d hd
      rcases List.mem_append.mp hd with hd | hd
      · exact hacc d hd
      · rcases List.mem_singleton.mp hd with rfl
        exact hp

lemma splitWhen_tokens (p : Char → Bool) (cs : List Char) :
    ∀ t ∈ splitWhen p cs, t ≠ [] ∧ ∀ c ∈ t, p c = false :=
  splitWhenAux_tokens p cs [] (by simp)

lemma pyInt_head (cs : List Char) (z : ℤ) (h : pyInt? cs = some z) :
    ∃ c rest, cs = c :: rest ∧ (c = '-' ∨ c = '+' ∨ c.isDigit = true) := by
  cases cs with
  | nil => simp [pyInt?] at h
  | cons c rest =>
    refine ⟨c, rest, rfl, ?_⟩
    by_cases h1 : c = '-'
    · exact Or.inl h1
    by_cases h2 : c = '+'
    · exact Or.inr (Or.inl h2)
    refine Or.inr (Or.inr ?_)
    simp only [pyInt?, if_neg h1, if_neg h2] at h
    by_cases h3 : (c :: rest).all Char.isDigit
    · exact (List.all_eq_true.mp h3 c (by simp))
    · rw [Bool.not_eq_true] at h3
      simp [h3] at h

lemma sign_digit_not_space (c : Char)
    (h : c = '-' ∨ c = '+' ∨ c.isDigit = true) : isPySpace c = false := by
  rcases h with rfl | rfl | h
  · decide
  · decide
  · unfold isPySpace
    simp only [Bool.or_eq_false_iff, decide_eq_false_iff_not]
    refine ⟨⟨⟨⟨⟨?_, ?_⟩, ?_⟩, ?_⟩, ?_⟩, ?_⟩ <;>
      (rintro rfl; exact absurd h (by decide))

lemma sign_digit_ne_lbracket (c : Char)
    (h : c = '-' ∨ c = '+' ∨ c.isDigit = true) : ('[' == c) = false := by
  have hne : ¬ ('[' = c) := by
    rcases h with rfl | rfl | h
    · decide
    · decide
    · intro e
      rw [← e] at h
      exact absurd h (by decide)
  simp [hne]

lemma dropWhile_append_single (p : Char → Bool) (c : Char) (hc : p c = false) :
    ∀ xs : List Char, (xs ++ [c]).dropWhile p = xs.dropWhile p ++ [c] := by
  intro xs
  induction xs with
  | nil => simp [List.dropWhile, hc]
  | cons x xs ih =>
    by_cases hx : p x = true
    · simp [List.dropWhile_cons, hx, ih]
    · rw [Bool.not_eq_true] at hx
      simp [List.dropWhile_cons, hx]

lemma pyStrip_cons (c : Char) (l : List Char) (hc : isPySpace c = false) :
    ∃ rest, pyStrip (c :: l) = c :: rest := by
  unfold pyStrip
  rw [List.dropWhile_cons, if_neg (by simp [hc])]
  rw [show (c :: l).reverse = l.reverse ++ [c] by simp]
  rw [dropWhile_append_single isPySpace c hc l.reverse]
  exact ⟨(l.reverse.dropWhile isPySpace).reverse, by simp⟩

lemma pyJoin_head (sep : List Char) (c : Char) (t : List Char)
    (ys : List (List Char)) :
    ∃ rest, pyJoin sep ((c :: t) :: ys) = c :: rest := by
  cases ys with
  | nil => exact ⟨t, rfl⟩
  | cons y ys => exact ⟨t ++ sep ++ pyJoin sep (y :: ys), by simp [pyJoin]⟩

lemma modify_atom_line_good (solute : Finset ℤ) (s m : Line)
    (h : modify_atom_line solute s = some m) : headerFree m := by
  unfold modify_atom_line at h
  by_cases hlen : (pySplit s).length < 8
  · simp [hlen] at h
  rw [if_neg hlen] at h
  rcases h0 : pyInt? ((pySplit s).getD 0 []) with _ | nr
  · rw [h0] at h; simp at h
  rcases h2 : pyInt? ((pySplit s).getD 2 []) with _ | resnr
  · rw [h0, h2] at h; simp at h
  rw [h0, h2] at h
  simp only at h
  by_cases hmem : nr - 1 ∈ solute
  · rw [if_pos hmem] at h
    by_cases hund : ((pySplit s).getD 1 []).getLast? = some '_'
    · rw [if_pos hund] at h
      simp at h
    · rw [if_neg hund] at h
      have hm : m = pyJoin [' ']
          ((pySplit s).set 1 ((pySplit s).getD 1 [] ++ ['_'])) ++ ['\n'] := by
        exact (Option.some.injEq _ _ ▸ h.symm :)
      -- the first field is unchanged and starts with a sign or digit
      obtain ⟨t0, rest, hsplit⟩ : ∃ t0 rest, pySplit s = t0 :: rest := by
        cases hs : pySplit s with
        | nil => rw [hs] at hlen; simp at hlen
        | cons a b => exact ⟨a, b, rfl⟩
      have ht0 : (pySplit s).getD 0 [] = t0 := by rw [hsplit]; rfl
      obtain ⟨c, t0', hc0, hsign⟩ := pyInt_head t0 nr (ht0 ▸ h0)
      have hset : (pySplit s).set 1 ((pySplit s).getD 1 [] ++ ['_']) =
          (c :: t0') :: rest.set 0 ((pySplit s).getD 1 [] ++ ['_']) := by
        rw [hsplit, hc0]
        rfl
      obtain ⟨tail, htail⟩ := pyJoin_head [' '] c t0'
        (rest.set 0 ((pySplit s).getD 1 [] ++ ['_']))
      have hm' : m = c :: (tail ++ ['\n']) := by
        rw [hm, hset, htail]
        simp
      obtain ⟨srest, hstrip⟩ :=
        pyStrip_cons c (tail ++ ['\n']) (sign_digit_not_space c hsign)
      have hne := sign_digit_ne_lbracket c hsign
      constructor
      · rw [hm', hstrip]
        have : moleculetypeHeader = '[' :: lineOf " moleculetype ]" := by decide
        rw [this]
        simp [List.isPrefixOf, hne]
      · rw [hm', hstrip]
        have : atomsHeader = '[' :: lineOf " atoms ]" := by decide
        rw [this]
        simp [List.isPrefixOf, hne]
  · simp [hmem] at h

lemma topo_atoms_step_lines (solute : Finset ℤ) (line stripped : Line)
    (st : TopoState) (emitted : List Line) (stats : TopoStats) :
    (topo_atoms_step solute line stripped st emitted stats).1 =
      emitted ++ [line] ∨
    ∃ m, modify_atom_line solute stripped = some m ∧
      (topo_atoms_step solute line stripped st emitted stats).1 =
        emitted ++ [m] := by
  unfold topo_atoms_step
  split_ifs
  · cases hm : modify_atom_line solute stripped with
    | none => left; simp [hm]
    | some m => right; exact ⟨m, rfl, by simp [hm]⟩
  · left; rfl
  · left; rfl

lemma process_line_lines (mol : Option Line) (solute : Finset ℤ)
    (acc : TopoAcc) (line : Line) :
    (process_topology_line mol solute acc line).lines = acc.lines ∨
    ∃ m, (process_topology_line mol solute acc line).lines = acc.lines ++ [m] ∧
      headerFree m := by
  unfold process_topology_line
  by_cases h1 : moleculetypeHeader.isPrefixOf (pyStrip line) = true
  · left; simp [h1]
  rw [Bool.not_eq_true] at h1
  by_cases h2 : atomsHeader.isPrefixOf (pyStrip line) = true
  · left; simp [h1, h2]
  rw [Bool.not_eq_true] at h2
  simp only [h1, h2, Bool.false_eq_true, if_false]
  right
  rcases topo_atoms_step_lines solute line (pyStrip line)
      (topo_name_step mol (pyStrip line)
        (topo_section_flags (pyStrip line) acc.state) acc.stats).1 acc.lines
      (topo_name_step mol (pyStrip line)
        (topo_section_flags (pyStrip line) acc.state) acc.stats).2
    with h | ⟨m, hm, heq⟩
  · exact ⟨line, h, h1, h2⟩
  · exact ⟨m, heq, modify_atom_line_good solute (pyStrip line) m hm⟩

lemma fold_lines_good (mol : Option Line) (solute : Finset ℤ) :
    ∀ (doc : List Line) (acc : TopoAcc),
      (∀ l ∈ acc.lines, headerFree l) →
      ∀ l ∈ (doc.foldl (process_topology_line mol solute) acc).lines,
        headerFree l := by
  intro doc
  induction doc with
  | nil => intro acc h; simpa using h
  | cons x xs ih =>
    intro acc h
    simp only [List.foldl_cons]
    refine ih _ ?_
    rcases process_line_lines mol solute acc x with heq | ⟨m, heq, hgood⟩
    · rw [heq]; exact h
    · rw [heq]
      intro l hl
      rcases List.mem_append.mp hl with hl | hl
      · exact h l hl
      · rcases List.mem_singleton.mp hl with rfl
        exact hgood

lemma modify_atom_line_underscore (solute : Finset ℤ) (s : Line)
    (h : ((pySplit s).getD 1 []).getLast? = some '_') :
    modify_atom_line solute s = none := by
  unfold modify_atom_line
  by_cases hlen : (pySplit s).length < 8
  · simp [hlen]
  rw [if_neg hlen]
  rcases h0 : pyInt? ((pySplit s).getD 0 []) with _ | nr <;>
    rcases h2 : pyInt? ((pySplit s).getD 2 []) with _ | rn
  · rfl
  · rfl
  · rfl
  · change (if nr - 1 ∈ solute then
        if ((pySplit s).getD 1 []).getLast? = some '_' then none
        else some (pyJoin [' ']
          ((pySplit s).set 1 ((pySplit s).getD 1 [] ++ ['_'])) ++ ['\n'])
      else none) = none
    by_cases hm : nr - 1 ∈ solute
    · rw [if_pos hm, if_pos h]
    · rw [if_neg hm]

/-- C7: annotation is idempotent.  A second pass over the first pass's output
modifies zero atoms, and an atom line whose type token already ends in `_`
is never rewritten nor counted as modified by `_modify_atom_line`. -/
theorem annotator_idempotent :
    (∀ (mol : Option Line) (solute : Finset ℤ) (doc : List Line),
      (parse_and_modify_topology mol solute
        (parse_and_modify_topology mol solute doc).1).2.modified_atoms = 0) ∧
    (∀ (solute : Finset ℤ) (s : Line),
      ((pySplit s).getD 1 []).getLast? = some '_' →
      modify_atom_line solute s = none) := by
  constructor
  · intro mol solute doc
    have hgood : ∀ l ∈ (parse_and_modify_topology mol solute doc).1,
        headerFree l := by
      unfold parse_and_modify_topology
      exact fold_lines_good mol solute doc _ (by simp)
    have hfold := fold_no_atoms mol solute
      ((parse_and_modify_topology mol solute doc).1)
      { state := initTopoState, lines := [], stats := initTopoStats }
      (fun l hl => (hgood l hl).2) rfl
    exact hfold.2.trans rfl
  · exact modify_atom_line_underscore

/-- C7 witness: the idempotence statement applied to a one-molecule document
and the underscore clause applied to an already-annotated atom line. -/
theorem annotator_idempotent_witness :
    (parse_and_modify_topology none {0}
      (parse_and_modify_topology none {0}
        [lineOf "[ moleculetype ]\n", lineOf "MOL 3\n", lineOf "[ atoms ]\n",
         lineOf "1 CA 1 ALA CA 1 0.0 12.0\n"]).1).2.modified_atoms = 0 ∧
    modify_atom_line {0} (lineOf "1 CA_ 1 ALA CA 1 0.0 12.0") = none :=
  ⟨annotator_idempotent.1 none {0} _,
   annotator_idempotent.2 {0} (lineOf "1 CA_ 1 ALA CA 1 0.0 12.0") (by decide)⟩

/-- C5 counterexample: on a document with no atoms section the annotator
returns normally (full pass-through output and zero statistics); it does not
fail — there is no `NoAtomsSection` error path in
`_parse_and_modify_topology`. -/
theorem annotate_no_atoms_returns_normally :
    parse_and_modify_topology none {0} [lineOf "hello world\n"] =
      ([lineOf "hello world\n"], initTopoStats) := by
  decide

/-- C5 amended: the annotate operation never fails; on a document with no
atoms-section header it returns normally with zero scanned and zero modified
atoms. -/
theorem annotate_without_atoms_section (mol : Option Line) (solute : Finset ℤ)
    (doc : List Line)
    (h : ∀ l ∈ doc, atomsHeader.isPrefixOf (pyStrip l) = false) :
    (parse_and_modify_topology mol solute doc).2.total_atoms = 0 ∧
    (parse_and_modify_topology mol solute doc).2.modified_atoms = 0 := by
  have hfold := fold_no_atoms mol solute doc
    { state := initTopoState, lines := [], stats := initTopoStats } h rfl
  exact ⟨hfold.1.trans rfl, hfold.2.trans rfl⟩

/-- C5 witness: a two-line document without an atoms section. -/
theorem annotate_without_atoms_section_witness :
    (parse_and_modify_topology none {0}
      [lineOf "; c\n", lineOf "x y\n"]).2.total_atoms = 0 ∧
    (parse_and_modify_topology none {0}
      [lineOf "; c\n", lineOf "x y\n"]).2.modified_atoms = 0 :=
  annotate_without_atoms_section none {0} [lineOf "; c\n", lineOf "x y\n"]
    (by decide)

/-- C1: evaluation at the failing input.  The annotator of
`solute_selector.py` drops the `[ moleculetype ]` and `[ atoms ]` header
lines from its output (their branches `continue` without emitting), and
`_modify_atom_line` of `solute_selector_module.py` returns `none` for an
atom line whose residue is outside the solute residue set, which its caller
then drops entirely. -/
theorem topology_headers_dropped_eval :
    (parse_and_modify_topology none ∅
      [lineOf "[ moleculetype ]\n", lineOf "MOL     3\n", lineOf "[ atoms ]\n",
       lineOf "1 CA 1 ALA CA 1 0.0 12.0\n"]).1 =
      [lineOf "MOL     3\n", lineOf "1 CA 1 ALA CA 1 0.0 12.0\n"] ∧
    modify_atom_line_module ∅ (lineOf "1 CA 1 ALA CA 1 0.0 12.0\n")
      (lineOf "1 CA 1 ALA CA 1 0.0 12.0") = none := by
  decide

lemma isPrefixOf_bracket (xs : List Char) (ys : List Char)
    (h : (('[' :: xs).isPrefixOf ys) = true) : (['['].isPrefixOf ys) = true := by
  cases ys with
  | nil => simp [List.isPrefixOf] at h
  | cons y ys =>
    simp only [List.isPrefixOf, Bool.and_eq_true, beq_iff_eq] at h ⊢
    exact ⟨h.1, trivial⟩

lemma topo_section_flags_found (stripped : Line) (st : TopoState) :
    (topo_section_flags stripped st).found_target_molecule =
      st.found_target_molecule := by
  unfold topo_section_flags
  split_ifs <;> rfl

lemma topo_name_step_found_none (stripped : Line) (st : TopoState)
    (stats : TopoStats) (h : st.found_target_molecule = true) :
    (topo_name_step none stripped st stats).1.found_target_molecule = true := by
  unfold topo_name_step
  split_ifs <;> simp [h]

/-- C4 counterexample: with `molecule_name = None` and solute index `0`, the
annotator rewrites the atom line of the SECOND molecule (`MOLB`) as well —
every molecule is in scope, not only the first. -/
theorem second_molecule_also_annotated :
    (parse_and_modify_topology none {0}
      [lineOf "[ moleculetype ]\n", lineOf "MOLA 3\n", lineOf "[ atoms ]\n",
       lineOf "1 CA 1 ALA CA 1 0.1 12.0\n", lineOf "[ bonds ]\n",
       lineOf "1 2 1\n", lineOf "[ moleculetype ]\n", lineOf "MOLB 3\n",
       lineOf "[ atoms ]\n", lineOf "1 CB 1 GLY CB 1 0.1 12.0\n"]).1 =
      [lineOf "MOLA 3\n", lineOf "1 CA_ 1 ALA CA 1 0.1 12.0\n",
       lineOf "[ bonds ]\n", lineOf "1 2 1\n", lineOf "MOLB 3\n",
       lineOf "1 CB_ 1 GLY CB 1 0.1 12.0\n"] := by
  decide

/-- C4 amended: with no configured molecule name, EVERY molecule-name line
marks the section in scope (the scope flag is set on each molecule's name
line, and once set it is never cleared by any later line), so atom lines of
every molecule's atoms section are subject to rewriting, not only the first
molecule's. -/
theorem scope_marks_every_molecule :
    (∀ (solute : Finset ℤ) (acc : TopoAcc) (line : Line),
      acc.state.in_moleculetype = true →
      pyFalsy acc.state.current_molecule = true →
      ([';'].isPrefixOf (pyStrip line)) = false →
      (['['].isPrefixOf (pyStrip line)) = false →
      (pyStrip line).isEmpty = false →
      (process_topology_line none solute acc line).state.found_target_molecule
        = true) ∧
    (∀ (solute : Finset ℤ) (acc : TopoAcc) (line : Line),
      acc.state.found_target_molecule = true →
      (process_topology_line none solute acc line).state.found_target_molecule
        = true) := by
  constructor
  · intro solute acc line hmol hcur hsc hsb hse
    have hmolhead : moleculetypeHeader.isPrefixOf (pyStrip line) = false := by
      rw [show moleculetypeHeader = '[' :: lineOf " moleculetype ]" from rfl]
      cases hB : ('[' :: lineOf " moleculetype ]").isPrefixOf (pyStrip line) with
      | false => rfl
      | true => rw [isPrefixOf_bracket _ _ hB] at hsb; cases hsb
    have hatomshead : atomsHeader.isPrefixOf (pyStrip line) = false := by
      rw [show atomsHeader = '[' :: lineOf " atoms ]" from rfl]
      cases hB : ('[' :: lineOf " atoms ]").isPrefixOf (pyStrip line) with
      | false => rfl
      | true => rw [isPrefixOf_bracket _ _ hB] at hsb; cases hsb
    unfold process_topology_line
    simp only [hmolhead, hatomshead, Bool.false_eq_true, if_false]
    have hst1 : topo_section_flags (pyStrip line) acc.state = acc.state := by
      unfold topo_section_flags
      rw [if_neg (by simp [hsb])]
    rw [hst1]
    unfold topo_name_step
    rw [if_pos (by simp [hmol, hsc, hse]), if_pos hcur]
    rfl
  · intro solute acc line hf
    unfold process_topology_line
    by_cases h1 : moleculetypeHeader.isPrefixOf (pyStrip line) = true
    · simp [h1, hf]
    rw [Bool.not_eq_true] at h1
    by_cases h2 : atomsHeader.isPrefixOf (pyStrip line) = true
    · simp [h1, h2, hf]
    rw [Bool.not_eq_true] at h2
    simp only [h1, h2, Bool.false_eq_true, if_false]
    refine topo_name_step_found_none (pyStrip line) _ acc.stats ?_
    rw [topo_section_flags_found]
    exact hf

/-- C4 witness: the amended statement applied to a state inside a second
moleculetype section and to a state already in scope. -/
theorem scope_marks_every_molecule_witness :
    (process_topology_line none {0}
      { state := { in_moleculetype := true, in_atoms_section := false,
                   found_target_molecule := false, current_molecule := none },
        lines := [], stats := initTopoStats }
      (lineOf "MOLB 3\n")).state.found_target_molecule = true ∧
    (process_topology_line none {0}
      { state := { in_moleculetype := false, in_atoms_section := false,
                   found_target_molecule := true, current_molecule := none },
        lines := [], stats := initTopoStats }
      (lineOf "[ bonds ]\n")).state.found_target_molecule = true :=
  ⟨scope_marks_every_molecule.1 {0} _ (lineOf "MOLB 3\n")
      rfl rfl (by decide) (by decide) (by decide),
   scope_marks_every_molecule.2 {0} _ (lineOf "[ bonds ]\n") rfl⟩

lemma digitChar_isDigit (d : ℕ) (h : d < 10) : (digitChar d).isDigit = true := by
  interval_cases d <;> decide

lemma digitChar_toNat (d : ℕ) (h : d < 10) : (digitChar d).toNat = 48 + d := by
  interval_cases d <;> decide

lemma natCharsAux_ne_nil : ∀ (fuel n : ℕ), n < fuel → natCharsAux fuel n ≠ [] := by
  intro fuel
  induction fuel with
  | zero => intro n h; omega
  | succ fuel _ =>
    intro n _
    unfold natCharsAux
    by_cases h10 : n < 10
    · simp [h10]
    · simp [h10]

lemma natCharsAux_digits : ∀ (fuel n : ℕ), n < fuel →
    ∀ c ∈ natCharsAux fuel n, c.isDigit = true := by
  intro fuel
  induction fuel with
  | zero => intro n h; omega
  | succ fuel ih =>
    intro n hn c hc
    unfold natCharsAux at hc
    by_cases h10 : n < 10
    · rw [if_pos h10] at hc
      rcases List.mem_singleton.mp hc with rfl
      exact digitChar_isDigit n h10
    · rw [if_neg h10] at hc
      rcases List.mem_append.mp hc with hc | hc
      · exact ih (n / 10) (by omega) c hc
      · rcases List.mem_singleton.mp hc with rfl
        exact digitChar_isDigit (n % 10) (by omega)

lemma digitsVal_append_single (xs : List Char) (c : Char) :
    digitsVal (xs ++ [c]) = 10 * digitsVal xs + (c.toNat - 48) := by
  unfold digitsVal
  rw [List.foldl_append]
  rfl

lemma digitsVal_natCharsAux : ∀ (fuel n : ℕ), n < fuel →
    digitsVal (natCharsAux fuel n) = n := by
  intro fuel
  induction fuel with
  | zero => intro n h; omega
  | succ fuel ih =>
    intro n hn
    unfold natCharsAux
    by_cases h10 : n < 10
    · rw [if_pos h10]
      show 10 * 0 + ((digitChar n).toNat - 48) = n
      rw [digitChar_toNat n h10]
      omega
    · rw [if_neg h10, digitsVal_append_single, ih (n / 10) (by omega),
        digitChar_toNat (n % 10) (by omega)]
      omega

lemma natChars_ne_nil (n : ℕ) : natChars n ≠ [] :=
  natCharsAux_ne_nil (n + 1) n (by omega)

lemma natChars_digits (n : ℕ) : ∀ c ∈ natChars n, c.isDigit = true :=
  natCharsAux_digits (n + 1) n (by omega)

lemma digitsVal_natChars (n : ℕ) : digitsVal (natChars n) = n :=
  digitsVal_natCharsAux (n + 1) n (by omega)

lemma tokChar_not_sep (c : Char) (h : c.isDigit = true ∨ c = '-') :
    isSepChar c = false := by
  rcases h with h | rfl
  · unfold isSepChar
    simp only [Bool.or_eq_false_iff, decide_eq_false_iff_not]
    refine ⟨⟨⟨?_, ?_⟩, ?_⟩, ?_⟩ <;> (rintro rfl; exact absurd h (by decide))
  · decide

lemma tokChar_not_space (c : Char) (h : c.isDigit = true ∨ c = '-') :
    isPySpace c = false := by
  rcases h with h | rfl
  · exact sign_digit_not_space c (Or.inr (Or.inr h))
  · decide

lemma digit_bne_dash (c : Char) (h : c.isDigit = true) : (c == '-') = false := by
  have : ¬ (c = '-') := by
    rintro rfl
    exact absurd h (by decide)
  simp [this]

lemma rangeStr_good (s e : ℕ) :
    rangeStr s e ≠ [] ∧ ∀ c ∈ rangeStr s e, c.isDigit = true ∨ c = '-' := by
  unfold rangeStr
  split_ifs
  · exact ⟨natChars_ne_nil s, fun c hc => Or.inl (natChars_digits s c hc)⟩
  · refine ⟨by simp [natChars_ne_nil s], ?_⟩
    intro c hc
    rcases List.mem_append.mp hc with hc | hc
    · exact Or.inl (natChars_digits s c hc)
    · rcases List.mem_cons.mp hc with rfl | hc
      · exact Or.inr rfl
      · exact Or.inl (natChars_digits e c hc)

lemma takeWhile_all_append {p : Char → Bool} :
    ∀ (xs : List Char), (∀ x ∈ xs, p x = true) →
      ∀ (y : Char), p y = false → ∀ (ys : List Char),
        (xs ++ y :: ys).takeWhile p = xs ∧ (xs ++ y :: ys).dropWhile p = y :: ys := by
  intro xs
  induction xs with
  | nil =>
    intro _ y hy ys
    constructor
    · simp [List.takeWhile_cons, hy]
    · simp [List.dropWhile_cons, hy]
  | cons x xs ih =>
    intro hall y hy ys
    have hx : p x = true := hall x (by simp)
    have := ih (fun a ha => hall a (by simp [ha])) y hy ys
    constructor
    · simp [List.takeWhile_cons, hx, this.1]
    · simp [List.dropWhile_cons, hx, this.2]

lemma decodeToken_rangeStr (s e : ℕ) (h : s ≤ e) :
    decodeToken (rangeStr s e) = Finset.Icc s e := by
  by_cases hse : s = e
  · subst hse
    have hr : rangeStr s s = natChars s := by
      unfold rangeStr
      rw [if_pos rfl]
    rw [hr]
    unfold decodeToken
    have hany : (natChars s).any (· == '-') = false := by
      rw [List.any_eq_false]
      intro c hc
      simp [digit_bne_dash c (natChars_digits s c hc)]
    rw [hany]
    simp only [Bool.false_eq_true, if_false]
    rw [digitsVal_natChars, Finset.Icc_self]
  · have hr : rangeStr s e = natChars s ++ '-' :: natChars e := by
      unfold rangeStr
      rw [if_neg hse]
    rw [hr]
    unfold decodeToken
    have hany : (natChars s ++ '-' :: natChars e).any (· == '-') = true := by
      rw [List.any_eq_true]
      exact ⟨'-', by simp, by simp⟩
    have htw := takeWhile_all_append (p := fun c => !(c == '-')) (natChars s)
      (fun c hc => by simp [digit_bne_dash c (natChars_digits s c hc)])
      '-' (by simp) (natChars e)
    rw [hany]
    simp only [if_true]
    rw [htw.1, htw.2]
    simp only [List.drop_succ_cons, List.drop_zero]
    rw [digitsVal_natChars, digitsVal_natChars]

lemma rangesLoop_good : ∀ (xs : List ℕ) (s e : ℕ),
    ∀ t ∈ rangesLoop s e xs, t ≠ [] ∧ ∀ c ∈ t, c.isDigit = true ∨ c = '-' := by
  intro xs
  induction xs with
  | nil =>
    intro s e t ht
    rcases List.mem_singleton.mp ht with rfl
    exact rangeStr_good s e
  | cons x xs ih =>
    intro s e t ht
    unfold rangesLoop at ht
    by_cases hx : x = e + 1
    · rw [if_pos hx] at ht
      exact ih s x t ht
    · rw [if_neg hx] at ht
      rcases List.mem_cons.mp ht with rfl | ht
      · exact rangeStr_good s e
      · exact ih x x t ht

lemma rangesLoop_decode : ∀ (xs : List ℕ) (s e : ℕ), s ≤ e →
    ((rangesLoop s e xs).map decodeToken).foldr (· ∪ ·) ∅ =
      Finset.Icc s e ∪ xs.toFinset := by
  intro xs
  induction xs with
  | nil =>
    intro s e hse
    simp [rangesLoop, decodeToken_rangeStr s e hse]
  | cons x xs ih =>
    intro s e hse
    unfold rangesLoop
    by_cases hx : x = e + 1
    · rw [if_pos hx]
      rw [ih s x (by omega)]
      subst hx
      ext a
      by_cases ha : a ∈ xs.toFinset <;>
        simp [Finset.mem_Icc, ha] <;> omega
    · rw [if_neg hx]
      simp only [List.map_cons, List.foldr_cons]
      rw [ih x x le_rfl, decodeToken_rangeStr s e hse]
      ext a
      by_cases ha : a ∈ xs.toFinset <;>
        simp [Finset.mem_Icc, ha] <;> omega

lemma splitWhenAux_nil_eq (p : Char → Bool) (acc : List Char) :
    splitWhenAux p acc [] = if acc.isEmpty then [] else [acc] := rfl

lemma splitWhenAux_cons_eq (p : Char → Bool) (acc : List Char) (c : Char)
    (cs : List Char) :
    splitWhenAux p acc (c :: cs) =
      if p c then
        if acc.isEmpty then splitWhenAux p [] cs
        else acc :: splitWhenAux p [] cs
      else splitWhenAux p (acc ++ [c]) cs := rfl

lemma splitWhenAux_token_go (p : Char → Bool) :
    ∀ (t : List Char), (∀ c ∈ t, p c = false) → ∀ (acc cs : List Char),
      splitWhenAux p acc (t ++ cs) = splitWhenAux p (acc ++ t) cs := by
  intro t
  induction t with
  | nil => intro _ acc cs; simp
  | cons c t ih =>
    intro hall acc cs
    have hc : p c = false := hall c (by simp)
    show splitWhenAux p acc (c :: (t ++ cs)) = _
    rw [splitWhenAux_cons_eq, if_neg (by simp [hc]),
      ih (fun d hd => hall d (by simp [hd])) (acc ++ [c]) cs,
      List.append_assoc]
    rfl

lemma splitWhenAux_sep_go (p : Char → Bool) :
    ∀ (s : List Char), (∀ c ∈ s, p c = true) → ∀ (cs : List Char),
      splitWhenAux p [] (s ++ cs) = splitWhenAux p [] cs := by
  intro s
  induction s with
  | nil => intro _ cs; rfl
  | cons c s ih =>
    intro hall cs
    have hc : p c = true := hall c (by simp)
    show splitWhenAux p [] (c :: (s ++ cs)) = _
    rw [splitWhenAux_cons_eq, if_pos hc,
      if_pos (show (List.isEmpty []) = true from rfl)]
    exact ih (fun d hd => hall d (by simp [hd])) cs

lemma splitWhenAux_flush (p : Char → Bool) (acc cs : List Char)
    (hacc : ¬ acc.isEmpty = true) (hcs : headSep p cs) :
    splitWhenAux p acc cs = acc :: splitWhenAux p [] cs := by
  rcases hcs with rfl | ⟨d, ds, rfl, hd⟩
  · rw [splitWhenAux_nil_eq, if_neg hacc]
    rfl
  · rw [splitWhenAux_cons_eq, if_pos hd, if_neg hacc,
      splitWhenAux_cons_eq, if_pos hd,
      if_pos (show (List.isEmpty []) = true from rfl)]

lemma splitWhen_join_comma (p : Char → Bool) (hpc : p ',' = true) :
    ∀ (ts : List (List Char)),
      (∀ t ∈ ts, t ≠ [] ∧ ∀ c ∈ t, p c = false) →
      ∀ (cs : List Char), headSep p cs →
      splitWhenAux p [] (pyJoin [','] ts ++ cs) = ts ++ splitWhenAux p [] cs := by
  intro ts
  induction ts with
  | nil => intro _ cs _; rfl
  | cons t ts ih =>
    intro hall cs hcs
    have ht := hall t (by simp)
    have hne : ¬ t.isEmpty = true := by
      cases t with
      | nil => exact absurd rfl ht.1
      | cons a b => simp
    cases ts with
    | nil =>
      show splitWhenAux p [] (t ++ cs) = _
      rw [splitWhenAux_token_go p t ht.2 [] cs]
      simp only [List.nil_append]
      rw [splitWhenAux_flush p t cs hne hcs]
      rfl
    | cons t' rest =>
      show splitWhenAux p [] ((t ++ [','] ++ pyJoin [','] (t' :: rest)) ++ cs) = _
      have hassoc : (t ++ [','] ++ pyJoin [','] (t' :: rest)) ++ cs =
          t ++ (',' :: (pyJoin [','] (t' :: rest) ++ cs)) := by
        simp
      rw [hassoc, splitWhenAux_token_go p t ht.2 []]
      simp only [List.nil_append]
      rw [splitWhenAux_flush p t _ hne (Or.inr ⟨',', _, rfl, hpc⟩)]
      have : splitWhenAux p [] (',' :: (pyJoin [','] (t' :: rest) ++ cs)) =
          splitWhenAux p [] (pyJoin [','] (t' :: rest) ++ cs) := by
        rw [splitWhenAux_cons_eq, if_pos hpc,
          if_pos (show (List.isEmpty []) = true from rfl)]
      rw [this, ih (fun a ha => hall a (by simp [ha])) cs hcs]
      rfl

lemma splitWhen_join_wrap (p : Char → Bool) (hpc : p ',' = true)
    (hsep : ∀ c ∈ wrapSep, p c = true) :
    ∀ (tss : List (List (List Char))),
      (∀ ts' ∈ tss, ts' ≠ []) →
      (∀ t ∈ tss.flatten, t ≠ [] ∧ ∀ c ∈ t, p c = false) →
      splitWhenAux p [] (pyJoin wrapSep (tss.map (pyJoin [',']))) =
        tss.flatten := by
  intro tss
  induction tss with
  | nil => intro _ _; rfl
  | cons ts' tss ih =>
    intro hne hall
    cases tss with
    | nil =>
      show splitWhenAux p [] (pyJoin [','] ts') = _
      have h := splitWhen_join_comma p hpc ts'
        (fun t ht => hall t (by simp [ht])) [] (Or.inl rfl)
      rw [List.append_nil] at h
      rw [h, show splitWhenAux p [] ([] : List Char) = [] from rfl]
      simp
    | cons ts'' rest =>
      show splitWhenAux p []
        (pyJoin [','] ts' ++ wrapSep ++
          pyJoin wrapSep ((ts'' :: rest).map (pyJoin [',']))) = _
      have hassoc : pyJoin [','] ts' ++ wrapSep ++
          pyJoin wrapSep ((ts'' :: rest).map (pyJoin [','])) =
          pyJoin [','] ts' ++ (wrapSep ++
            pyJoin wrapSep ((ts'' :: rest).map (pyJoin [',']))) := by
        simp
      rw [hassoc]
      rw [splitWhen_join_comma p hpc ts'
        (fun t ht => hall t (by simp [ht]))
        (wrapSep ++ pyJoin wrapSep ((ts'' :: rest).map (pyJoin [','])))
        (Or.inr ⟨' ', _, rfl, hsep ' ' (by decide)⟩)]
      rw [splitWhenAux_sep_go p wrapSep hsep]
      rw [ih (fun a ha => hne a (by simp [ha]))
        (fun t ht => hall t (by simp at ht ⊢; tauto))]
      simp

lemma pyJoin_comma_ne_nil (t : Line) (rest : List Line) (ht : t ≠ []) :
    pyJoin [','] (t :: rest) ≠ [] := by
  cases rest with
  | nil => exact ht
  | cons a b =>
    show t ++ [','] ++ pyJoin [','] (a :: b) ≠ []
    simp

lemma pyJoin_append_single (r : Line) :
    ∀ (curts : List Line), curts ≠ [] →
      pyJoin [','] (curts ++ [r]) = pyJoin [','] curts ++ ',' :: r := by
  intro curts
  induction curts with
  | nil => intro h; exact absurd rfl h
  | cons t rest ih =>
    intro _
    cases rest with
    | nil => simp [pyJoin]
    | cons a b =>
      show t ++ [','] ++ pyJoin [','] ((a :: b) ++ [r]) = _
      rw [ih (by simp)]
      show t ++ [','] ++ (pyJoin [','] (a :: b) ++ ',' :: r) =
        (t ++ [','] ++ pyJoin [','] (a :: b)) ++ ',' :: r
      simp

lemma pyJoin_chars (sep : List Char) :
    ∀ (ts : List Line) (c : Char), c ∈ pyJoin sep ts →
      c ∈ sep ∨ ∃ t ∈ ts, c ∈ t := by
  intro ts
  induction ts with
  | nil => intro c hc; simp [pyJoin] at hc
  | cons t rest ih =>
    intro c hc
    cases rest with
    | nil => exact Or.inr ⟨t, by simp, hc⟩
    | cons a b =>
      rcases List.mem_append.mp hc with hc | hc
      · rcases List.mem_append.mp hc with hc | hc
        · exact Or.inr ⟨t, by simp, hc⟩
        · exact Or.inl hc
      · rcases ih c hc with hc | ⟨u, hu, hcu⟩
        · exact Or.inl hc
        · exact Or.inr ⟨u, by simp [hu], hcu⟩

lemma pyRstrip_id (cs : Line) (h : ∀ c ∈ cs, isPySpace c = false) :
    pyRstrip cs = cs := by
  unfold pyRstrip
  have hid : cs.reverse.dropWhile isPySpace = cs.reverse := by
    cases hr : cs.reverse with
    | nil => rfl
    | cons a b =>
      rw [List.dropWhile_cons, if_neg]
      simp only [Bool.not_eq_true]
      refine h a ?_
      rw [← List.mem_reverse, hr]
      simp
  rw [hid, List.reverse_reverse]

lemma wrapLoop_nil_eq (formatted : List Line) (current : Line) (len : ℕ) :
    wrapLoop formatted current len [] =
      if current.isEmpty then formatted else formatted ++ [current] := rfl

lemma wrapLoop_cons_eq (formatted : List Line) (current : Line) (len : ℕ)
    (r : Line) (rs : List Line) :
    wrapLoop formatted current len (r :: rs) =
      if len + r.length + 1 > 80 then
        wrapLoop (if current.isEmpty then formatted
          else formatted ++ [pyRstrip current]) r r.length rs
      else if current.isEmpty then wrapLoop formatted r r.length rs
      else wrapLoop formatted (current ++ ',' :: r)
        (len + r.length + 1) rs := rfl

lemma wrapLoop_partition :
    ∀ (rs : List Line) (formatted : List Line) (curts : List Line) (len : ℕ),
      (∀ t ∈ curts, t ≠ [] ∧ ∀ c ∈ t, c.isDigit = true ∨ c = '-') →
      (∀ r ∈ rs, r ≠ [] ∧ ∀ c ∈ r, c.isDigit = true ∨ c = '-') →
      ∃ tss : List (List Line),
        wrapLoop formatted (pyJoin [','] curts) len rs =
          formatted ++ tss.map (pyJoin [',']) ∧
        tss.flatten = curts ++ rs ∧ (∀ ts' ∈ tss, ts' ≠ []) := by
  intro rs
  induction rs with
  | nil =>
    intro formatted curts len hcur _
    cases curts with
    | nil =>
      refine ⟨[], ?_, by simp, by simp⟩
      rw [show pyJoin [','] ([] : List Line) = [] from rfl, wrapLoop_nil_eq]
      simp
    | cons t rest =>
      refine ⟨[t :: rest], ?_, by simp, by simp⟩
      rw [wrapLoop_nil_eq, if_neg (by
        simp only [List.isEmpty_eq_true]
        exact pyJoin_comma_ne_nil t rest (hcur t (by simp)).1)]
      simp
  | cons r rs ih =>
    intro formatted curts len hcur hrs
    have hr := hrs r (by simp)
    have hrs' : ∀ x ∈ rs, x ≠ [] ∧ ∀ c ∈ x, c.isDigit = true ∨ c = '-' :=
      fun x hx => hrs x (by simp [hx])
    rw [wrapLoop_cons_eq]
    by_cases hov : len + r.length + 1 > 80
    · rw [if_pos hov]
      cases curts with
      | nil =>
        rw [show pyJoin [','] ([] : List Line) = [] from rfl]
        rw [if_pos (show (List.isEmpty ([] : Line)) = true from rfl)]
        obtain ⟨tss, h1, h2, h3⟩ := ih formatted [r] r.length
          (by intro t ht; rcases List.mem_singleton.mp ht with rfl; exact hr)
          hrs'
        rw [show pyJoin [','] [r] = r from rfl] at h1
        exact ⟨tss, h1, by simp [h2], h3⟩
      | cons t rest =>
        have hne : ¬ (pyJoin [','] (t :: rest)).isEmpty = true := by
          simp only [List.isEmpty_eq_true]
          exact pyJoin_comma_ne_nil t rest (hcur t (by simp)).1
        rw [if_neg hne]
        have hid : pyRstrip (pyJoin [','] (t :: rest)) =
            pyJoin [','] (t :: rest) := by
          refine pyRstrip_id _ ?_
          intro c hc
          rcases pyJoin_chars [','] (t :: rest) c hc with hc | ⟨u, hu, hcu⟩
          · rcases List.mem_singleton.mp hc with rfl
            decide
          · exact tokChar_not_space c ((hcur u hu).2 c hcu)
        rw [hid]
        obtain ⟨tss, h1, h2, h3⟩ := ih
          (formatted ++ [pyJoin [','] (t :: rest)]) [r] r.length
          (by intro u hu; rcases List.mem_singleton.mp hu with rfl; exact hr)
          hrs'
        rw [show pyJoin [','] [r] = r from rfl] at h1
        refine ⟨(t :: rest) :: tss, ?_, ?_, ?_⟩
        · rw [h1]
          simp
        · simp [h2]
        · intro a ha
          rcases List.mem_cons.mp ha with rfl | ha
          · simp
          · exact h3 a ha
    · rw [if_neg hov]
      cases curts with
      | nil =>
        rw [show pyJoin [','] ([] : List Line) = [] from rfl]
        rw [if_pos (show (List.isEmpty ([] : Line)) = true from rfl)]
        obtain ⟨tss, h1, h2, h3⟩ := ih formatted [r] r.length
          (by intro t ht; rcases List.mem_singleton.mp ht with rfl; exact hr)
          hrs'
        rw [show pyJoin [','] [r] = r from rfl] at h1
        exact ⟨tss, h1, by simp [h2], h3⟩
      | cons t rest =>
        have hne : ¬ (pyJoin [','] (t :: rest)).isEmpty = true := by
          simp only [List.isEmpty_eq_true]
          exact pyJoin_comma_ne_nil t rest (hcur t (by simp)).1
        rw [if_neg hne]
        rw [show pyJoin [','] (t :: rest) ++ ',' :: r =
          pyJoin [','] ((t :: rest) ++ [r]) from
          (pyJoin_append_single r (t :: rest) (by simp)).symm]
        obtain ⟨tss, h1, h2, h3⟩ := ih formatted ((t :: rest) ++ [r])
          (len + r.length + 1)
          (by
            intro u hu
            rcases List.mem_append.mp hu with hu | hu
            · exact hcur u hu
            · rcases List.mem_singleton.mp hu with rfl; exact hr)
          hrs'
        refine ⟨tss, h1, ?_, h3⟩
        rw [h2]
        simp

lemma perm_toFinset {l l' : List ℕ} (h : List.Perm l l') :
    l.toFinset = l'.toFinset := by
  ext a
  simp [List.mem_toFinset, h.mem_iff]

/-- C6 counterexample: for the empty index list the range encoder does not
fail — it returns the editable placeholder string. -/
theorem format_atom_list_empty_returns_placeholder :
    format_atom_list [] =
      "1-100  # EDIT THIS: Replace with actual solute atom indices" := rfl

/-- C6 amended: the empty (or missing) index set is not an error: both
`_format_atom_list` and its caller `_create_partial_tempering_command`
substitute the placeholder `"1-100  # EDIT THIS: ..."` string. -/
theorem empty_index_set_placeholder :
    format_atom_list [] = placeholderAtomList ∧
    atom_list_for none = placeholderAtomList ∧
    atom_list_for (some []) = placeholderAtomList :=
  ⟨rfl, rfl, rfl⟩

/-- C3: the range encoder emits the maximal-consecutive-run encoding and the
spec-modelled decoder inverts it: for every non-empty list of positive atom
indices, decoding the encoded string yields exactly the original index set;
and `encode {1,2,3,5,6,9} = "1-3,5-6,9"`. -/
theorem range_encoder_round_trip :
    (∀ l : List ℕ, l ≠ [] → (∀ x ∈ l, 0 < x) →
      decode_atom_list (format_atom_list l) = l.toFinset) ∧
    format_atom_list [1, 2, 3, 5, 6, 9] = "1-3,5-6,9" := by
  constructor
  · intro l hne _hpos
    have hnotempty : ¬ l.isEmpty = true := by
      simpa [List.isEmpty_eq_true] using hne
    obtain ⟨x, xs, hsort⟩ : ∃ x xs, l.insertionSort (· ≤ ·) = x :: xs := by
      cases hs : l.insertionSort (· ≤ ·) with
      | nil =>
        exfalso
        have hp := List.perm_insertionSort (fun a b => a ≤ b) l
        rw [hs] at hp
        exact hne (hp.symm.eq_nil)
      | cons a b => exact ⟨a, b, rfl⟩
    have htofin : (x :: xs).toFinset = l.toFinset := by
      rw [← hsort]
      exact perm_toFinset (List.perm_insertionSort _ l)
    have hgood := rangesLoop_good xs x x
    have hgood' : ∀ t ∈ rangesLoop x x xs,
        t ≠ [] ∧ ∀ c ∈ t, isSepChar c = false :=
      fun t ht => ⟨(hgood t ht).1,
        fun c hc => tokChar_not_sep c ((hgood t ht).2 c hc)⟩
    have hdec : ((rangesLoop x x xs).map decodeToken).foldr (· ∪ ·) ∅ =
        l.toFinset := by
      rw [rangesLoop_decode xs x x le_rfl, Finset.Icc_self, ← htofin]
      ext a
      simp
    unfold format_atom_list
    rw [if_neg hnotempty]
    simp only [hsort]
    by_cases hlen : (pyJoin [','] (rangesLoop x x xs)).length > 80
    · rw [if_pos hlen]
      unfold decode_atom_list
      rw [show (String.mk (pyJoin wrapSep
        (wrapLoop [] [] 0 (rangesLoop x x xs)))).data =
        pyJoin wrapSep (wrapLoop [] [] 0 (rangesLoop x x xs)) from rfl]
      have hpart := wrapLoop_partition (rangesLoop x x xs) [] [] 0
        (by simp) hgood
      rw [show pyJoin [','] ([] : List Line) = [] from rfl] at hpart
      obtain ⟨tss, h1, h2, h3⟩ := hpart
      rw [List.nil_append] at h1 h2
      rw [h1]
      have hwrap := splitWhen_join_wrap isSepChar (by decide) (by decide)
        tss h3 (by
          intro t ht
          rw [h2] at ht
          exact hgood' t ht)
      unfold splitWhen
      rw [hwrap, h2, hdec]
    · rw [if_neg hlen]
      unfold decode_atom_list
      rw [show (String.mk (pyJoin [','] (rangesLoop x x xs))).data =
        pyJoin [','] (rangesLoop x x xs) from rfl]
      have hcomma := splitWhen_join_comma isSepChar (by decide)
        (rangesLoop x x xs) hgood' [] (Or.inl rfl)
      rw [List.append_nil] at hcomma
      unfold splitWhen
      rw [hcomma, show splitWhenAux isSepChar [] ([] : List Char) = []
        from rfl, List.append_nil, hdec]
  · decide

/-- C3 witness: the round trip evaluated on the unsorted positive list
`[9, 5, 6, 1, 2, 3]`. -/
theorem range_encoder_round_trip_witness :
    decode_atom_list (format_atom_list [9, 5, 6, 1, 2, 3]) =
      ([9, 5, 6, 1, 2, 3] : List ℕ).toFinset :=
  range_encoder_round_trip.1 [9, 5, 6, 1, 2, 3] (by decide) (by decide)

/-- C8 counterexample: with a trajectory loaded,
`find_nearby_residues_trajectory` returns normally for the out-of-range
threshold `2` (scanning the frame, not failing), and the configuration
check accepts the threshold `0` even though `0` is outside `(0, 1]`. -/
theorem occupancy_not_validated :
    find_nearby_residues_trajectory (some [{ pos := fun _ => (0, 0, 0) }])
      [⟨0, 1⟩] [] 5 2 = .ok ∅ ∧
    occupancy_threshold_errors 0 = [] := by
  constructor
  · unfold find_nearby_residues_trajectory
    simp [frameContacts]
  · unfold occupancy_threshold_errors
    rw [if_neg (by norm_num)]

/-- C8 amended: `find_nearby_residues_trajectory` itself validates nothing
about the occupancy threshold: with a trajectory present it returns normally
for every threshold value, and it fails exactly when no trajectory is
loaded.  Range checks on the threshold live only in configuration
validation, before any trajectory scan, and the duplicated validators
disagree: `ValidationFramework.validate_configuration` (cited by the claim)
accepts the closed interval `[0, 1]`, so `0` — outside the documented
`(0, 1]` — passes it, while `ConfigManager.validate_config` of
`config_manager_module.py` enforces exactly `0 < threshold ≤ 1` when
`use_trajectory` is set and checks nothing otherwise. -/
theorem trajectory_threshold_behaviour :
    (∀ (frames : List Frame) (target_atoms protein_atoms : List AtomRec)
      (cutoff_distance occupancy_threshold : ℝ),
      ∃ s, find_nearby_residues_trajectory (some frames) target_atoms
        protein_atoms cutoff_distance occupancy_threshold = .ok s) ∧
    (∀ (target_atoms protein_atoms : List AtomRec)
      (cutoff_distance occupancy_threshold : ℝ),
      find_nearby_residues_trajectory none target_atoms protein_atoms
        cutoff_distance occupancy_threshold =
        .error "Trajectory file required for dynamic analysis") ∧
    (∀ occupancy_threshold : ℝ,
      occupancy_threshold_errors occupancy_threshold = [] ↔
        0 ≤ occupancy_threshold ∧ occupancy_threshold ≤ 1) ∧
    (∀ occupancy_threshold : ℝ,
      occupancy_threshold_errors_module true occupancy_threshold = [] ↔
        0 < occupancy_threshold ∧ occupancy_threshold ≤ 1) ∧
    (∀ occupancy_threshold : ℝ,
      occupancy_threshold_errors_module false occupancy_threshold = []) := by
  refine ⟨?_, ?_, ?_, ?_, ?_⟩
  · intro frames target_atoms protein_atoms cutoff_distance occupancy_threshold
    exact ⟨_, rfl⟩
  · intro _ _ _ _
    rfl
  · intro θ
    unfold occupancy_threshold_errors
    split_ifs with h
    · constructor
      · intro hx
        simp at hx
      · intro ⟨h1, h2⟩
        rcases h with h | h <;> linarith
    · push_neg at h
      constructor
      · intro _
        exact ⟨h.1, h.2⟩
      · intro _
        rfl
  · intro θ
    unfold occupancy_threshold_errors_module
    split_ifs with h
    · constructor
      · intro hx
        simp at hx
      · intro hb
        exact absurd hb h.2
    · rw [not_and] at h
      constructor
      · intro _
        exact not_not.mp (h rfl)
      · intro _
        rfl
  · intro θ
    unfold occupancy_threshold_errors_module
    rw [if_neg (by simp)]

end REST2

